import Mathlib

/-!
Verification development for the grammar-walking engine of the
proxy-structuring-engine repository.

The repository ships the engine's interface declarations (`Walker`,
`Acceptor`, `State`, `Edge`, `VisitedEdge`, `StateGraph`) together with design
documents; the implementation bodies themselves are not part of the source
tree.  The definitions below are therefore modelled from the specification's
description of the data model (spec section 3), the walker traversal and
branching rules (section 4.2), token healing (section 4.3), and the driver's
per-step orchestration with Best-Effort Matching (section 4.4).

Modelling conventions:
* Python strings are embedded as `List Char` (`Str`).
* Edges carry leaf literal acceptors (the sub-acceptor on an edge matches one
  fixed character string); the hierarchical nesting of composite acceptors is
  flattened to this leaf level, which is the level at which the repository's
  documents state the claims under study.
* Python's in-place mutation is replaced by functional update: `advance`
  returns the successor walkers, and "raises no exception" is rendered by
  totality (`advance` returns a plain list; the driver returns `Except`, whose
  only error is the spec's fatal exhaustion case, section 7).
-/

namespace PSE

/-- Modelled from the spec: a `State` is an opaque identifier, a small integer
or a symbolic tag (src/unnamed/part_003, `State = int | str`). -/
inductive State where
  | num : Nat → State
  | sym : String → State
deriving DecidableEq

/-- Character strings of the engine, embedded as lists of characters. -/
abbrev Str := List Char

/-- Modelled from the spec: an `Edge` is `(sub_acceptor, target_state)`; here
the sub-acceptor is a leaf literal matcher given by its `label`. -/
structure Edge where
  label : Str
  target : State
deriving DecidableEq

/-- Modelled from the spec: `StateGraph` maps each state to its outgoing
edges (src/unnamed/part_003, `StateGraph = Dict[State, List[Edge]]`). -/
abbrev StateGraph := List (State × List Edge)

/-- Modelled from the spec: a `VisitedEdge` records source state, target
state and consumed text (src/unnamed/part_003, `VisitedEdge`).  The consumed
text is recorded cumulatively (the walker's accumulated raw value through the
transition), which encodes the input position the traversal had reached. -/
abbrev VisitedEdge := State × Option State × Option Str

/-- Modelled from the spec: an `Acceptor` is an immutable grammar fragment
`{state_graph, initial_state, end_states, is_optional, is_case_sensitive}`
(spec section 3, src/unnamed/part_003 `Acceptor`). -/
structure Acceptor where
  state_graph : StateGraph
  initial_state : State
  end_states : List State
  is_optional : Bool
  is_case_sensitive : Bool
deriving DecidableEq

/-- Modelled from the spec: `Acceptor.__init__` defaults — an omitted
`state_graph` becomes the empty mapping, `start_state` defaults to `0`,
omitted `end_states` becomes `("$",)`, `is_optional` defaults to `False` and
`is_case_sensitive` to `True` (src/unnamed/part_003 lines 134-152).  An
omitted argument is passed as `none`. -/
def Acceptor.init (sg : Option StateGraph) (ss : Option State)
    (es : Option (List State)) (opt : Option Bool) (cased : Option Bool) :
    Acceptor :=
  { state_graph := sg.getD []
    initial_state := ss.getD (State.num 0)
    end_states := es.getD [State.sym "$"]
    is_optional := opt.getD false
    is_case_sensitive := cased.getD true }

/-- Outgoing edges of a state: the `state_graph` entry for it, else none. -/
def Acceptor.edgesFrom (a : Acceptor) (s : State) : List Edge :=
  ((a.state_graph.find? (fun p => p.1 == s)).map Prod.snd).getD []

/-- The in-progress match of a leaf literal sub-acceptor: its label and the
number of label characters already consumed (the sub-walker of a pending
transition, flattened to the leaf level). -/
structure LeafW where
  label : Str
  pos : Nat
deriving DecidableEq

/-- Modelled from the spec: a `Walker` is a cursor over one `Acceptor`
(spec section 3, src/unnamed/part_003 `Walker`).  `accepted_history` is kept
as the list of `VisitedEdge` records of completed transitions; `raw_value`
is the accumulated consumed text. -/
structure Walker where
  acceptor : Acceptor
  current_state : State
  target_state : Option State
  transition_walker : Option LeafW
  consumed_character_count : Nat
  remaining_input : Option Str
  explored_edges : List VisitedEdge
  accepted_history : List VisitedEdge
  accepts_more_input : Bool
  raw_value : Str
deriving DecidableEq

/-- Modelled from the spec: a fresh walker rooted at the acceptor's initial
state (src/unnamed/part_003 `Walker.__init__` / `Acceptor.get_walkers`). -/
def Walker.init (a : Acceptor) : Walker :=
  { acceptor := a
    current_state := a.initial_state
    target_state := none
    transition_walker := none
    consumed_character_count := 0
    remaining_input := none
    explored_edges := []
    accepted_history := []
    accepts_more_input := true
    raw_value := [] }

/-- Modelled from the spec: `has_reached_accept_state` — the walker is in an
accept state iff `current_state ∈ end_states` and no `transition_walker` is
pending (spec section 3). -/
def Walker.has_reached_accept_state (w : Walker) : Bool :=
  decide (w.current_state ∈ w.acceptor.end_states) && w.transition_walker.isNone

/-- A walker that is at an end state and can accept no more input is done:
per the spec's idempotent-completion property (section 8) advancing it
changes nothing. -/
def Walker.hasEnded (w : Walker) : Bool :=
  decide (w.current_state ∈ w.acceptor.end_states) && !w.accepts_more_input

/-- Modelled from the spec: `should_start_transition` checks whether a leaf
sub-acceptor could plausibly begin matching the token — the token and the
edge's label are prefix-compatible (spec section 4.2, StartingTransition). -/
def shouldStart (e : Edge) (tok : Str) : Bool :=
  !tok.isEmpty && (tok.isPrefixOf e.label || e.label.isPrefixOf tok)

/-- The cycle guard: an edge whose visited record is already in
`explored_edges` is not re-traversed (spec section 3). -/
def guardOK (w : Walker) (e : Edge) : Bool :=
  !(decide ((w.current_state, some e.target, some (w.raw_value ++ e.label))
      ∈ w.explored_edges))

/-- Outcome of feeding input characters into a leaf literal match. -/
inductive LeafOutcome where
  | complete : Nat → Str → LeafOutcome
  | stillIn : Nat → LeafOutcome
  | reject : LeafOutcome
deriving DecidableEq

/-- Feed `input` into a leaf literal match.  If the unmatched rest of the
label is a prefix of the input, the transition completes and the surplus
input is the leftover; if the input is a proper prefix of the rest, the match
merely advances; otherwise the branch is rejected. -/
def feedLeaf (label : Str) (pos : Nat) (input : Str) : LeafOutcome :=
  if (label.drop pos).isPrefixOf input then
    .complete (label.drop pos).length (input.drop (label.drop pos).length)
  else if input.isPrefixOf (label.drop pos) then .stillIn (pos + input.length)
  else .reject

/-- Modelled from the spec: `complete_transition` — record a `VisitedEdge` in
`explored_edges` (a set, so without duplication) and `accepted_history`, move
`current_state` to the target, clear the pending transition (spec section
4.2, InTransition step). -/
def completeEdge (w : Walker) (target : State) (piece : Str) : Walker :=
  let raw2 := w.raw_value ++ piece
  let rec2 : VisitedEdge := (w.current_state, some target, some raw2)
  { w with
    current_state := target
    target_state := none
    transition_walker := none
    consumed_character_count := w.consumed_character_count + piece.length
    raw_value := raw2
    remaining_input := none
    explored_edges :=
      if rec2 ∈ w.explored_edges then w.explored_edges
      else w.explored_edges ++ [rec2]
    accepted_history := w.accepted_history ++ [rec2] }

/-- Modelled from the spec: `start_transition` into an edge whose label is
longer than the input — the walker enters the InTransition state holding the
partially fed leaf sub-walker (spec section 4.2). -/
def enterEdge (w : Walker) (e : Edge) (input : Str) : Walker :=
  { w with
    transition_walker := some ⟨e.label, input.length⟩
    target_state := some e.target
    consumed_character_count := w.consumed_character_count + input.length
    raw_value := w.raw_value ++ input
    remaining_input := none }

/-- A pending leaf match consumes the whole input and stays in progress. -/
def extendLeaf (w : Walker) (leaf : LeafW) (p : Nat) (input : Str) : Walker :=
  { w with
    transition_walker := some ⟨leaf.label, p⟩
    consumed_character_count := w.consumed_character_count + input.length
    raw_value := w.raw_value ++ input
    remaining_input := none }

/-- Modelled from the spec: after a completed transition, leftover input is
re-advanced within the same call; a walker whose leftover cannot be consumed
is yielded with the leftover stored in `remaining_input` (token healing,
spec section 4.3; diagram.md RemCheck → RecurseAdv / YieldWalk). -/
def contWith (advF : Walker → Str → List Walker) (w1 : Walker)
    (leftover : Str) : List Walker :=
  if (advF w1 leftover).isEmpty then [{ w1 with remaining_input := some leftover }]
  else advF w1 leftover

/-- Modelled from the spec: one branch of `branch_walker` — attempt to start
the edge (`should_start_transition` plus the `explored_edges` cycle guard)
and feed the token into its leaf sub-acceptor (spec sections 4.1-4.2). -/
def branchArm (advF : Walker → Str → List Walker) (w : Walker) (input : Str)
    (e : Edge) : List Walker :=
  if shouldStart e input && guardOK w e then
    match feedLeaf e.label 0 input with
    | .reject => []
    | .stillIn _ => [enterEdge w e input]
    | .complete _ leftover => contWith advF (completeEdge w e.target e.label) leftover
  else []

/-- Modelled from the spec: `advance`, fuel-indexed.  The fuel dominates the
input length on every call, so the `0` fallback is unreachable; recursion
happens only on strictly shorter leftover input.  An empty input, or a done
walker (end state, accepts no more input) returns the walker unchanged;
an idle walker fans out over every viable edge (completeness under
branching); a mid-transition walker feeds its pending leaf match. -/
def advA : Nat → Walker → Str → List Walker
  | _, w, [] => [w]
  | 0, w, _ => [w]
  | fuel + 1, w, input =>
    if w.hasEnded then [w]
    else
      match w.transition_walker with
      | some leaf =>
        match feedLeaf leaf.label leaf.pos input with
        | .reject => []
        | .stillIn p => [extendLeaf w leaf p input]
        | .complete _ leftover =>
          contWith (fun w2 s2 => advA fuel w2 s2)
            (completeEdge w (w.target_state.getD w.current_state)
              (leaf.label.drop leaf.pos)) leftover
      | none =>
        (w.acceptor.edgesFrom w.current_state).flatMap
          (branchArm (fun w2 s2 => advA fuel w2 s2) w input)

/-- Modelled from the spec: `Acceptor.advance` / `Walker.consume_token` —
feed a token into a walker and return every viable successor (possibly 0, 1
or many), re-advancing leftover input within the same call. -/
def advanceW (w : Walker) (input : Str) : List Walker :=
  advA input.length w input

/-- Modelled from the spec: attempt a token against every live walker,
keeping each predecessor paired with its successor so the driver can see how
much of the token each successor consumed (spec section 4.4 step 2). -/
def resultPairs (pop : List Walker) (tok : Str) : List (Walker × Walker) :=
  pop.flatMap (fun w => (advanceW w tok).map (fun w2 => (w, w2)))

/-- The number of token characters a successor actually consumed. -/
def gain (p : Walker × Walker) : Nat :=
  p.2.consumed_character_count - p.1.consumed_character_count

/-- The longest consumed amount over all walker successors for one token:
`tok.length` when some walker fully accepts the token, a smaller positive
amount when only a healed prefix is accepted, `0` when the token is
structurally rejected by the whole population. -/
def bestGain (pop : List Walker) (tok : Str) : Nat :=
  (resultPairs pop tok).foldr (fun p m => max (gain p) m) 0

/-- Modelled from the spec: a candidate is acceptable when some walker fully
accepts it or accepts it as a valid partial/healed prefix — that is, some
successor consumed a non-empty part of it (spec section 4.4 step 2). -/
def acceptableTok (pop : List Walker) (tok : Str) : Bool :=
  decide (0 < bestGain pop tok)

/-- Modelled from the spec: committing a candidate — the committed text is
the token itself when fully accepted, else its longest validated prefix;
the population is replaced by the successors that consumed that much
(longest accepted prefix wins, spec sections 4.2 and 4.4). -/
def commitOf (pop : List Walker) (tok : Str) : Str × List Walker :=
  (tok.take (bestGain pop tok),
   ((resultPairs pop tok).filter (fun p => gain p == bestGain pop tok)).map
     (fun p => p.2))

/-- Modelled from the spec: scan the ranked candidates in order and commit
at the first acceptable one — the fast path (spec section 4.4 step 2). -/
def scanCandidates (pop : List Walker) : List Str → Option (Str × List Walker)
  | [] => none
  | c :: rest =>
    if acceptableTok pop c then some (commitOf pop c)
    else scanCandidates pop rest

/-- Modelled from the spec: a non-empty string is a legal continuation of
the live population when some walker consumes all of it (the forward
acceptance used by `find_valid_prefixes`, spec section 4.3). -/
def isLegalCont (pop : List Walker) (s : Str) : Bool :=
  !s.isEmpty && (resultPairs pop s).any (fun p => gain p == s.length)

/-- Pick the longest string of a list, preferring the earlier one on ties
(the tie-break is a configurable policy per spec section 9; list order
stands in for the model's ranking). -/
def pickLongest : List Str → Option Str
  | [] => none
  | x :: xs =>
    match pickLongest xs with
    | none => some x
    | some b => if b.length ≤ x.length then some x else some b

/-- Modelled from the spec: Best-Effort Matching — among all vocabulary
tokens, the single longest one that is a legal continuation of some live
walker (spec section 4.4 step 3). -/
def longestLegal (pop : List Walker) (vocab : List Str) : Option Str :=
  pickLongest (vocab.filter (fun t => isLegalCont pop t))

/-- Modelled from the spec: the only per-step fatal condition — no walker
survives and Best-Effort Matching also finds nothing (spec section 7,
Exhaustion). -/
inductive DriverError where
  | exhausted : DriverError
deriving DecidableEq

end PSE

deriving instance DecidableEq for Except

namespace PSE

/-- Modelled from the spec: one driver step (spec section 4.4) — scan the
ranked candidates for the first acceptable one and commit it (or its
validated prefix); otherwise fall back to Best-Effort Matching; otherwise
report exhaustion. -/
def driverStep (pop : List Walker) (cands vocab : List Str) :
    Except DriverError (Str × List Walker) :=
  match scanCandidates pop cands with
  | some r => .ok r
  | none =>
    match longestLegal pop vocab with
    | some t => .ok (commitOf pop t)
    | none => .error .exhausted

/-- Every edge label in the acceptor's graph is non-empty: leaf literal
acceptors consume at least one character. -/
def labelsNonempty (a : Acceptor) : Prop :=
  ∀ p ∈ a.state_graph, ∀ e ∈ p.2, e.label ≠ []

instance (a : Acceptor) : Decidable (labelsNonempty a) := by
  unfold labelsNonempty; infer_instance

/-! Concrete grammar fragments used to exercise the model: a single-literal
acceptor, the boolean-literal acceptor of the token-healing scenario, a
cyclic (recursive) bracket acceptor, and a two-way-ambiguous acceptor. -/

/-- A grammar expecting exactly the literal `"a"`. -/
def A1 : Acceptor :=
  { state_graph := [(State.num 0, [⟨"a".toList, State.sym "$"⟩])]
    initial_state := State.num 0
    end_states := [State.sym "$"]
    is_optional := false
    is_case_sensitive := true }

/-- A fresh walker on `A1`. -/
def w0ex : Walker := Walker.init A1

/-- The boolean-literal grammar of the token-healing scenario: the literals
`"true"` and `"false"` lead to the accept state. -/
def boolA : Acceptor :=
  { state_graph := [(State.num 0,
      [⟨"true".toList, State.sym "$"⟩, ⟨"false".toList, State.sym "$"⟩])]
    initial_state := State.num 0
    end_states := [State.sym "$"]
    is_optional := false
    is_case_sensitive := true }

/-- A fresh walker on `boolA`. -/
def wbool : Walker := Walker.init boolA

/-- A recursive (cyclic) grammar: state `0` loops on `"["` and closes to the
accept state on `"]"` — the flattened form of a nested-array fragment. -/
def nestA : Acceptor :=
  { state_graph := [(State.num 0,
      [⟨"[".toList, State.num 0⟩, ⟨"]".toList, State.sym "$"⟩])]
    initial_state := State.num 0
    end_states := [State.sym "$"]
    is_optional := false
    is_case_sensitive := true }

/-- Input of nesting depth `n`: `n` opening brackets and one close. -/
def nestInput (n : Nat) : Str := List.replicate n '[' ++ [']']

/-- An acceptor with two simultaneously viable edges on the token `"ab"`:
one edge matches the literal `"ab"`, the other the literal `"abc"`. -/
def brA : Acceptor :=
  { state_graph := [(State.num 0,
      [⟨"ab".toList, State.num 1⟩, ⟨"abc".toList, State.num 2⟩])]
    initial_state := State.num 0
    end_states := [State.num 1, State.num 2]
    is_optional := false
    is_case_sensitive := true }

/-- A fresh walker on `brA`. -/
def wbr : Walker := Walker.init brA

/-- A completed walker: at the accept state of `A1`, accepting no more
input. -/
def wdone : Walker :=
  { Walker.init A1 with
    current_state := State.sym "$"
    accepts_more_input := false
    consumed_character_count := 1
    raw_value := "a".toList }

/-- The visited record appended by `completeEdge`. -/
def edgeRec (w : Walker) (target : State) (piece : Str) : VisitedEdge :=
  (w.current_state, some target, some (w.raw_value ++ piece))

/-- The length of the consumed text recorded in a visited edge. -/
def visitedLen (v : VisitedEdge) : Nat :=
  match v.2.2 with
  | some t => t.length
  | none => 0

/-! Basic equations and field lemmas. -/

@[simp]
lemma advA_nil (f : Nat) (w : Walker) : advA f w [] = [w] := by
  cases f <;> rfl

@[simp]
lemma advA_zero (w : Walker) (input : Str) : advA 0 w input = [w] := by
  cases input <;> rfl

lemma advA_succ (f : Nat) (w : Walker) (c : Char) (cs : Str) :
    advA (f + 1) w (c :: cs) =
      if w.hasEnded then [w]
      else
        match w.transition_walker with
        | some leaf =>
          match feedLeaf leaf.label leaf.pos (c :: cs) with
          | .reject => []
          | .stillIn p => [extendLeaf w leaf p (c :: cs)]
          | .complete _ leftover =>
            contWith (fun w2 s2 => advA f w2 s2)
              (completeEdge w (w.target_state.getD w.current_state)
                (leaf.label.drop leaf.pos)) leftover
        | none =>
          (w.acceptor.edgesFrom w.current_state).flatMap
            (branchArm (fun w2 s2 => advA f w2 s2) w (c :: cs)) := rfl

lemma advA_succ_ended (f : Nat) (w : Walker) (c : Char) (cs : Str)
    (hEnd : w.hasEnded = true) : advA (f + 1) w (c :: cs) = [w] := by
  rw [advA_succ, if_pos hEnd]

lemma advA_succ_leaf (f : Nat) (w : Walker) (c : Char) (cs : Str) (leaf : LeafW)
    (hEnd : w.hasEnded = false) (ht : w.transition_walker = some leaf) :
    advA (f + 1) w (c :: cs) =
      match feedLeaf leaf.label leaf.pos (c :: cs) with
      | .reject => []
      | .stillIn p => [extendLeaf w leaf p (c :: cs)]
      | .complete _ leftover =>
        contWith (fun w2 s2 => advA f w2 s2)
          (completeEdge w (w.target_state.getD w.current_state)
            (leaf.label.drop leaf.pos)) leftover := by
  rw [advA_succ, if_neg (by simp [hEnd]), ht]

lemma advA_succ_idle (f : Nat) (w : Walker) (c : Char) (cs : Str)
    (hEnd : w.hasEnded = false) (ht : w.transition_walker = none) :
    advA (f + 1) w (c :: cs) =
      (w.acceptor.edgesFrom w.current_state).flatMap
        (branchArm (fun w2 s2 => advA f w2 s2) w (c :: cs)) := by
  rw [advA_succ, if_neg (by simp [hEnd]), ht]

@[simp] lemma completeEdge_acceptor (w : Walker) (t : State) (p : Str) :
    (completeEdge w t p).acceptor = w.acceptor := rfl
@[simp] lemma completeEdge_current (w : Walker) (t : State) (p : Str) :
    (completeEdge w t p).current_state = t := rfl
@[simp] lemma completeEdge_transition (w : Walker) (t : State) (p : Str) :
    (completeEdge w t p).transition_walker = none := rfl
@[simp] lemma completeEdge_remaining (w : Walker) (t : State) (p : Str) :
    (completeEdge w t p).remaining_input = none := rfl
@[simp] lemma completeEdge_consumed (w : Walker) (t : State) (p : Str) :
    (completeEdge w t p).consumed_character_count =
      w.consumed_character_count + p.length := rfl
@[simp] lemma completeEdge_raw (w : Walker) (t : State) (p : Str) :
    (completeEdge w t p).raw_value = w.raw_value ++ p := rfl
@[simp] lemma completeEdge_more (w : Walker) (t : State) (p : Str) :
    (completeEdge w t p).accepts_more_input = w.accepts_more_input := rfl

lemma completeEdge_explored (w : Walker) (t : State) (p : Str) :
    (completeEdge w t p).explored_edges =
      if edgeRec w t p ∈ w.explored_edges then w.explored_edges
      else w.explored_edges ++ [edgeRec w t p] := rfl

@[simp] lemma enterEdge_acceptor (w : Walker) (e : Edge) (s : Str) :
    (enterEdge w e s).acceptor = w.acceptor := rfl
@[simp] lemma enterEdge_explored (w : Walker) (e : Edge) (s : Str) :
    (enterEdge w e s).explored_edges = w.explored_edges := rfl
@[simp] lemma enterEdge_remaining (w : Walker) (e : Edge) (s : Str) :
    (enterEdge w e s).remaining_input = none := rfl
@[simp] lemma enterEdge_target (w : Walker) (e : Edge) (s : Str) :
    (enterEdge w e s).target_state = some e.target := rfl
@[simp] lemma enterEdge_leaf (w : Walker) (e : Edge) (s : Str) :
    (enterEdge w e s).transition_walker = some ⟨e.label, s.length⟩ := rfl

@[simp] lemma extendLeaf_acceptor (w : Walker) (lf : LeafW) (p : Nat) (s : Str) :
    (extendLeaf w lf p s).acceptor = w.acceptor := rfl
@[simp] lemma extendLeaf_explored (w : Walker) (lf : LeafW) (p : Nat) (s : Str) :
    (extendLeaf w lf p s).explored_edges = w.explored_edges := rfl
@[simp] lemma extendLeaf_remaining (w : Walker) (lf : LeafW) (p : Nat) (s : Str) :
    (extendLeaf w lf p s).remaining_input = none := rfl

lemma hasEnded_false_of_more (w : Walker) (h : w.accepts_more_input = true) :
    w.hasEnded = false := by
  simp [Walker.hasEnded, h]

lemma contWith_ne_nil (advF : Walker → Str → List Walker) (w1 : Walker)
    (leftover : Str) : contWith advF w1 leftover ≠ [] := by
  unfold contWith
  split_ifs with hE
  · simp
  · simpa [List.isEmpty_iff] using hE

lemma mem_contWith (advF : Walker → Str → List Walker) (w1 : Walker)
    (leftover : Str) (wn : Walker) (h : wn ∈ contWith advF w1 leftover) :
    (advF w1 leftover = [] ∧ wn = { w1 with remaining_input := some leftover })
      ∨ wn ∈ advF w1 leftover := by
  unfold contWith at h
  split_ifs at h with hE
  · exact Or.inl ⟨by simpa [List.isEmpty_iff] using hE, by simpa using h⟩
  · exact Or.inr h

lemma feedLeaf_start_ne_reject (e : Edge) (input : Str)
    (h : shouldStart e input = true) : feedLeaf e.label 0 input ≠ .reject := by
  unfold shouldStart at h
  simp only [Bool.and_eq_true, Bool.or_eq_true] at h
  unfold feedLeaf
  simp only [List.drop_zero]
  split_ifs with hA hB
  · simp
  · simp
  · exfalso
    rcases h.2 with h2 | h2
    · exact hB h2
    · exact hA h2

lemma branchArm_ne_nil (advF : Walker → Str → List Walker) (w : Walker)
    (input : Str) (e : Edge) (h : (shouldStart e input && guardOK w e) = true) :
    branchArm advF w input e ≠ [] := by
  unfold branchArm
  rw [if_pos h]
  cases hf : feedLeaf e.label 0 input with
  | reject =>
    exact absurd hf (feedLeaf_start_ne_reject e input (Bool.and_elim_left h))
  | stillIn p => simp
  | complete n lf => exact contWith_ne_nil advF _ lf

lemma mem_branchArm (advF : Walker → Str → List Walker) (w : Walker)
    (input : Str) (e : Edge) (wn : Walker) (h : wn ∈ branchArm advF w input e) :
    (shouldStart e input && guardOK w e) = true ∧
      ((∃ p, feedLeaf e.label 0 input = .stillIn p ∧ wn = enterEdge w e input) ∨
       (∃ n leftover, feedLeaf e.label 0 input = .complete n leftover ∧
         wn ∈ contWith advF (completeEdge w e.target e.label) leftover)) := by
  unfold branchArm at h
  split_ifs at h with hs
  · cases hf : feedLeaf e.label 0 input with
    | reject => rw [hf] at h; simp at h
    | stillIn p =>
      rw [hf] at h; simp at h
      exact ⟨hs, Or.inl ⟨p, rfl, h⟩⟩
    | complete n lf =>
      rw [hf] at h
      exact ⟨hs, Or.inr ⟨n, lf, rfl, h⟩⟩
  · simp at h

lemma completeEdge_explored_sub (w : Walker) (t : State) (p : Str) :
    w.explored_edges ⊆ (completeEdge w t p).explored_edges := by
  rw [completeEdge_explored]
  split_ifs
  · exact fun x hx => hx
  · exact List.subset_append_left _ _

lemma completeEdge_nodup (w : Walker) (t : State) (p : Str)
    (h : w.explored_edges.Nodup) : (completeEdge w t p).explored_edges.Nodup := by
  rw [completeEdge_explored]
  split_ifs with hm
  · exact h
  · rw [List.nodup_append]
    refine ⟨h, by simp, ?_⟩
    intro x hx hx2
    simp at hx2
    exact hm (hx2 ▸ hx)

lemma completeEdge_rec_mem (w : Walker) (t : State) (p : Str) :
    edgeRec w t p ∈ (completeEdge w t p).explored_edges := by
  rw [completeEdge_explored]
  split_ifs with hm
  · exact hm
  · simp

/-- Every walker produced by `advA` carries at least the visited edges of
its ancestor: `explored_edges` only grows during advancement. -/
lemma advA_explored_mono : ∀ (f : Nat) (w : Walker) (input : Str),
    ∀ wn ∈ advA f w input, w.explored_edges ⊆ wn.explored_edges := by
  intro f
  induction f with
  | zero =>
    intro w input wn h
    rw [advA_zero] at h
    simp at h
    subst h
    exact fun x hx => hx
  | succ f IH =>
    intro w input wn h
    cases input with
    | nil =>
      simp at h
      subst h
      exact fun x hx => hx
    | cons c cs =>
      cases hEnd : w.hasEnded with
      | true =>
        rw [advA_succ_ended f w c cs hEnd] at h
        simp at h
        subst h
        exact fun x hx => hx
      | false =>
        cases ht : w.transition_walker with
        | some leaf =>
          rw [advA_succ_leaf f w c cs leaf hEnd ht] at h
          cases hf : feedLeaf leaf.label leaf.pos (c :: cs) with
          | reject => rw [hf] at h; simp at h
          | stillIn p =>
            rw [hf] at h; simp at h
            subst h
            simp
          | complete n lf =>
            rw [hf] at h
            rcases mem_contWith _ _ _ _ h with ⟨_, rfl⟩ | hmem
            · simpa using completeEdge_explored_sub w _ _
            · exact fun x hx =>
                IH _ _ _ (by simpa using hmem) (completeEdge_explored_sub w _ _ hx)
        | none =>
          rw [advA_succ_idle f w c cs hEnd ht] at h
          rcases List.mem_flatMap.mp h with ⟨e, _, harm⟩
          rcases mem_branchArm _ _ _ _ _ harm with ⟨_, hcase⟩
          rcases hcase with ⟨p, _, rfl⟩ | ⟨n, lf, _, hcw⟩
          · simp
          · rcases mem_contWith _ _ _ _ hcw with ⟨_, rfl⟩ | hmem
            · simpa using completeEdge_explored_sub w _ _
            · exact fun x hx =>
                IH _ _ _ (by simpa using hmem) (completeEdge_explored_sub w _ _ hx)

/-- Advancement preserves duplicate-freedom of `explored_edges`: a visited
record already present is never recorded again (the cycle guard in
`completeEdge` skips a record that is already in the set). -/
lemma advA_nodup : ∀ (f : Nat) (w : Walker) (input : Str),
    w.explored_edges.Nodup → ∀ wn ∈ advA f w input, wn.explored_edges.Nodup := by
  intro f
  induction f with
  | zero =>
    intro w input hn wn h
    rw [advA_zero] at h
    simp at h
    subst h
    exact hn
  | succ f IH =>
    intro w input hn wn h
    cases input with
    | nil =>
      simp at h
      subst h
      exact hn
    | cons c cs =>
      cases hEnd : w.hasEnded with
      | true =>
        rw [advA_succ_ended f w c cs hEnd] at h
        simp at h
        subst h
        exact hn
      | false =>
        cases ht : w.transition_walker with
        | some leaf =>
          rw [advA_succ_leaf f w c cs leaf hEnd ht] at h
          cases hf : feedLeaf leaf.label leaf.pos (c :: cs) with
          | reject => rw [hf] at h; simp at h
          | stillIn p => rw [hf] at h; simp at h; subst h; simpa using hn
          | complete n lf =>
            rw [hf] at h
            rcases mem_contWith _ _ _ _ h with ⟨_, rfl⟩ | hmem
            · simpa using completeEdge_nodup w _ _ hn
            · exact IH _ _ (completeEdge_nodup w _ _ hn) wn (by simpa using hmem)
        | none =>
          rw [advA_succ_idle f w c cs hEnd ht] at h
          rcases List.mem_flatMap.mp h with ⟨e, _, harm⟩
          rcases mem_branchArm _ _ _ _ _ harm with ⟨_, hcase⟩
          rcases hcase with ⟨p, _, rfl⟩ | ⟨n, lf, _, hcw⟩
          · simpa using hn
          · rcases mem_contWith _ _ _ _ hcw with ⟨_, rfl⟩ | hmem
            · simpa using completeEdge_nodup w _ _ hn
            · exact IH _ _ (completeEdge_nodup w _ _ hn) wn (by simpa using hmem)

/-- An idle, not-done walker advances to nothing exactly when every outgoing
edge fails the start check or the cycle guard. -/
lemma advA_idle_nil_iff (f : Nat) (w : Walker) (c : Char) (cs : Str)
    (hEnd : w.hasEnded = false) (ht : w.transition_walker = none) :
    advA (f + 1) w (c :: cs) = [] ↔
      ∀ e ∈ w.acceptor.edgesFrom w.current_state,
        (shouldStart e (c :: cs) && guardOK w e) = false := by
  rw [advA_succ_idle f w c cs hEnd ht, List.flatMap_eq_nil_iff]
  constructor
  · intro hall e he
    by_contra hb
    exact branchArm_ne_nil _ w (c :: cs) e (by simpa using hb) (hall e he)
  · intro hall e he
    unfold branchArm
    rw [if_neg (by simp [hall e he])]

/-- Inversion of an empty advancement result for an idle walker: the input
was non-empty, the walker was not done, and every outgoing edge failed. -/
lemma advA_nil_inv (f : Nat) (w1 : Walker) (leftover : Str)
    (hidle : w1.transition_walker = none) (h : advA f w1 leftover = []) :
    leftover ≠ [] ∧ w1.hasEnded = false ∧
      ∀ e ∈ w1.acceptor.edgesFrom w1.current_state,
        (shouldStart e leftover && guardOK w1 e) = false := by
  cases f with
  | zero => rw [advA_zero] at h; simp at h
  | succ f =>
    cases leftover with
    | nil => rw [advA_nil] at h; simp at h
    | cons c cs =>
      cases hEnd : w1.hasEnded with
      | true => rw [advA_succ_ended f w1 c cs hEnd] at h; simp at h
      | false =>
        exact ⟨by simp, rfl,
          (advA_idle_nil_iff f w1 c cs hEnd hidle).mp h⟩

/-- Every walker yielded by advancement either exhausted its input
(`remaining_input = none`) or is stuck: it holds a non-empty remainder that
no outgoing edge of its current state can start consuming. -/
lemma advA_yield : ∀ (f : Nat) (w : Walker) (input : Str),
    w.remaining_input = none → ∀ wn ∈ advA f w input,
    wn.remaining_input = none ∨
      ∃ r, r ≠ [] ∧ wn.remaining_input = some r ∧
        wn.transition_walker = none ∧
        ∀ e ∈ wn.acceptor.edgesFrom wn.current_state,
          (shouldStart e r && guardOK wn e) = false := by
  intro f
  induction f with
  | zero =>
    intro w input hrem wn h
    rw [advA_zero] at h
    simp at h
    subst h
    exact Or.inl hrem
  | succ f IH =>
    intro w input hrem wn h
    cases input with
    | nil => simp at h; subst h; exact Or.inl hrem
    | cons c cs =>
      cases hEnd : w.hasEnded with
      | true =>
        rw [advA_succ_ended f w c cs hEnd] at h
        simp at h
        subst h
        exact Or.inl hrem
      | false =>
        cases ht : w.transition_walker with
        | some leaf =>
          rw [advA_succ_leaf f w c cs leaf hEnd ht] at h
          cases hf : feedLeaf leaf.label leaf.pos (c :: cs) with
          | reject => rw [hf] at h; simp at h
          | stillIn p => rw [hf] at h; simp at h; subst h; exact Or.inl rfl
          | complete n lf =>
            rw [hf] at h
            rcases mem_contWith _ _ _ _ h with ⟨hnil, rfl⟩ | hmem
            · rcases advA_nil_inv f _ lf rfl (by simpa using hnil) with
                ⟨hlf, _, hall⟩
              exact Or.inr ⟨lf, hlf, rfl, rfl, fun e he => hall e he⟩
            · exact IH _ lf rfl wn (by simpa using hmem)
        | none =>
          rw [advA_succ_idle f w c cs hEnd ht] at h
          rcases List.mem_flatMap.mp h with ⟨e, _, harm⟩
          rcases mem_branchArm _ _ _ _ _ harm with ⟨_, hcase⟩
          rcases hcase with ⟨p, _, rfl⟩ | ⟨n, lf, _, hcw⟩
          · exact Or.inl rfl
          · rcases mem_contWith _ _ _ _ hcw with ⟨hnil, rfl⟩ | hmem
            · rcases advA_nil_inv f _ lf rfl (by simpa using hnil) with
                ⟨hlf, _, hall⟩
              exact Or.inr ⟨lf, hlf, rfl, rfl, fun e2 he2 => hall e2 he2⟩
            · exact IH _ lf rfl wn (by simpa using hmem)

/-- Advancement consumes at most the characters of the input it was fed. -/
lemma advA_consumed_le : ∀ (f : Nat) (w : Walker) (input : Str),
    ∀ wn ∈ advA f w input,
      wn.consumed_character_count ≤ w.consumed_character_count + input.length := by
  intro f
  induction f with
  | zero =>
    intro w input wn h
    rw [advA_zero] at h
    simp at h
    subst h
    omega
  | succ f IH =>
    intro w input wn h
    cases input with
    | nil => simp at h; subst h; omega
    | cons c cs =>
      cases hEnd : w.hasEnded with
      | true =>
        rw [advA_succ_ended f w c cs hEnd] at h
        simp at h
        subst h
        omega
      | false =>
        cases ht : w.transition_walker with
        | some leaf =>
          rw [advA_succ_leaf f w c cs leaf hEnd ht] at h
          cases hf : feedLeaf leaf.label leaf.pos (c :: cs) with
          | reject => rw [hf] at h; simp at h
          | stillIn p =>
            rw [hf] at h; simp at h
            subst h
            simp [extendLeaf]
          | complete n lf =>
            rw [hf] at h
            have hfl : (leaf.label.drop leaf.pos).isPrefixOf (c :: cs) = true ∧
                lf = (c :: cs).drop (leaf.label.drop leaf.pos).length := by
              unfold feedLeaf at hf
              split_ifs at hf with h1 h2
              exact ⟨by simpa using h1, by injection hf with _ h3; exact h3.symm⟩
            have hple : (leaf.label.drop leaf.pos).length ≤ (c :: cs).length :=
              List.IsPrefix.length_le (List.isPrefixOf_iff_prefix.mp hfl.1)
            have hlfl : lf.length =
                (c :: cs).length - (leaf.label.drop leaf.pos).length := by
              rw [hfl.2]; simp
            rcases mem_contWith _ _ _ _ h with ⟨_, rfl⟩ | hmem
            · show w.consumed_character_count + (leaf.label.drop leaf.pos).length ≤
                w.consumed_character_count + (c :: cs).length
              omega
            · have h2 := IH _ lf wn (by simpa using hmem)
              have h3 : (completeEdge w (w.target_state.getD w.current_state)
                  (leaf.label.drop leaf.pos)).consumed_character_count =
                  w.consumed_character_count + (leaf.label.drop leaf.pos).length := rfl
              rw [h3] at h2
              omega
        | none =>
          rw [advA_succ_idle f w c cs hEnd ht] at h
          rcases List.mem_flatMap.mp h with ⟨e, _, harm⟩
          rcases mem_branchArm _ _ _ _ _ harm with ⟨_, hcase⟩
          rcases hcase with ⟨p, _, rfl⟩ | ⟨n, lf, hf, hcw⟩
          · show w.consumed_character_count + (c :: cs).length ≤
              w.consumed_character_count + (c :: cs).length
            omega
          · have hfl : e.label.isPrefixOf (c :: cs) = true ∧
                lf = (c :: cs).drop e.label.length := by
              unfold feedLeaf at hf
              simp only [List.drop_zero] at hf
              split_ifs at hf with h1 h2
              exact ⟨by simpa using h1, by injection hf with _ h3; exact h3.symm⟩
            have hple : e.label.length ≤ (c :: cs).length :=
              List.IsPrefix.length_le (List.isPrefixOf_iff_prefix.mp hfl.1)
            have hlfl : lf.length = (c :: cs).length - e.label.length := by
              rw [hfl.2]; simp
            rcases mem_contWith _ _ _ _ hcw with ⟨_, rfl⟩ | hmem
            · show w.consumed_character_count + e.label.length ≤
                w.consumed_character_count + (c :: cs).length
              omega
            · have h2 := IH _ lf wn (by simpa using hmem)
              have h3 : (completeEdge w e.target e.label).consumed_character_count =
                  w.consumed_character_count + e.label.length := rfl
              rw [h3] at h2
              omega

/-- `advance` never changes which acceptor a walker runs on. -/
lemma advA_acceptor_eq : ∀ (f : Nat) (w : Walker) (input : Str),
    ∀ wn ∈ advA f w input, wn.acceptor = w.acceptor := by
  intro f
  induction f with
  | zero =>
    intro w input wn h
    rw [advA_zero] at h
    simp at h
    subst h
    rfl
  | succ f IH =>
    intro w input wn h
    cases input with
    | nil => simp at h; subst h; rfl
    | cons c cs =>
      cases hEnd : w.hasEnded with
      | true =>
        rw [advA_succ_ended f w c cs hEnd] at h
        simp at h
        subst h
        rfl
      | false =>
        cases ht : w.transition_walker with
        | some leaf =>
          rw [advA_succ_leaf f w c cs leaf hEnd ht] at h
          cases hf : feedLeaf leaf.label leaf.pos (c :: cs) with
          | reject => rw [hf] at h; simp at h
          | stillIn p => rw [hf] at h; simp at h; subst h; simp
          | complete n lf =>
            rw [hf] at h
            rcases mem_contWith _ _ _ _ h with ⟨_, rfl⟩ | hmem
            · simp
            · have := IH _ _ wn (by simpa using hmem)
              simpa using this
        | none =>
          rw [advA_succ_idle f w c cs hEnd ht] at h
          rcases List.mem_flatMap.mp h with ⟨e, _, harm⟩
          rcases mem_branchArm _ _ _ _ _ harm with ⟨_, hcase⟩
          rcases hcase with ⟨p, _, rfl⟩ | ⟨n, lf, _, hcw⟩
          · simp
          · rcases mem_contWith _ _ _ _ hcw with ⟨_, rfl⟩ | hmem
            · simp
            · have := IH _ _ wn (by simpa using hmem)
              simpa using this

/-! Driver-level lemmas. -/

lemma scanCandidates_none (pop : List Walker) :
    ∀ cands : List Str, (∀ c ∈ cands, acceptableTok pop c = false) →
      scanCandidates pop cands = none := by
  intro cands
  induction cands with
  | nil => intro _; rfl
  | cons c rest IH =>
    intro h
    unfold scanCandidates
    rw [if_neg (by simp [h c (by simp)])]
    exact IH fun x hx => h x (by simp [hx])

lemma pickLongest_cons_none (x : Str) (xs : List Str)
    (h : pickLongest xs = none) : pickLongest (x :: xs) = some x := by
  unfold pickLongest
  rw [h]

lemma pickLongest_cons_some (x : Str) (xs : List Str) (b : Str)
    (h : pickLongest xs = some b) :
    pickLongest (x :: xs) =
      if b.length ≤ x.length then some x else some b := by
  unfold pickLongest
  rw [h]

lemma pickLongest_none_nil : ∀ l : List Str, pickLongest l = none → l = [] := by
  intro l h
  cases l with
  | nil => rfl
  | cons x xs =>
    exfalso
    cases hp : pickLongest xs with
    | none => rw [pickLongest_cons_none x xs hp] at h; simp at h
    | some b =>
      rw [pickLongest_cons_some x xs b hp] at h
      split_ifs at h

lemma pickLongest_spec : ∀ (l : List Str) (s : Str), pickLongest l = some s →
    s ∈ l ∧ ∀ u ∈ l, u.length ≤ s.length := by
  intro l
  induction l with
  | nil => intro s h; simp [pickLongest] at h
  | cons x xs IH =>
    intro s h
    cases hp : pickLongest xs with
    | none =>
      rw [pickLongest_cons_none x xs hp] at h
      simp at h
      subst h
      have hxs := pickLongest_none_nil xs hp
      subst hxs
      exact ⟨by simp, by intro u hu; simp at hu; subst hu; exact le_refl _⟩
    | some b =>
      rw [pickLongest_cons_some x xs b hp] at h
      rcases IH b hp with ⟨hbm, hball⟩
      split_ifs at h with hlen
      · simp at h
        subst h
        refine ⟨by simp, ?_⟩
        intro u hu
        simp at hu
        rcases hu with rfl | hu
        · exact le_refl _
        · exact (hball u hu).trans hlen
      · simp at h
        subst h
        refine ⟨by simp [hbm], ?_⟩
        intro u hu
        simp at hu
        rcases hu with rfl | hu
        · omega
        · exact hball u hu

lemma gain_le_bestGain (pop : List Walker) (tok : Str) :
    ∀ p ∈ resultPairs pop tok, gain p ≤ bestGain pop tok := by
  unfold bestGain
  induction resultPairs pop tok with
  | nil => intro p hp; simp at hp
  | cons q l IH =>
    intro p hp
    simp at hp
    rcases hp with rfl | hp
    · simp
    · exact (IH p hp).trans (by simp)

lemma foldr_max_le (l : List (Walker × Walker)) (B : Nat)
    (h : ∀ p ∈ l, gain p ≤ B) :
    l.foldr (fun p m => max (gain p) m) 0 ≤ B := by
  induction l with
  | nil => simp
  | cons q l2 IH =>
    simp only [List.foldr_cons]
    have h1 := h q (by simp)
    have h2 := IH fun p hp => h p (by simp [hp])
    omega

lemma bestGain_le (pop : List Walker) (tok : Str) :
    bestGain pop tok ≤ tok.length := by
  unfold bestGain
  refine foldr_max_le _ _ ?_
  intro p hp
  unfold resultPairs at hp
  rcases List.mem_flatMap.mp hp with ⟨w, _, hp2⟩
  rcases List.mem_map.mp hp2 with ⟨wn, hwn, rfl⟩
  have := advA_consumed_le tok.length w tok wn hwn
  simp [gain]
  omega

lemma bestGain_eq_of_legal (pop : List Walker) (s : Str)
    (h : isLegalCont pop s = true) : bestGain pop s = s.length := by
  unfold isLegalCont at h
  simp only [Bool.and_eq_true, List.any_eq_true] at h
  rcases h.2 with ⟨p, hp, hg⟩
  have h1 := gain_le_bestGain pop s p hp
  have h2 := bestGain_le pop s
  simp at hg
  omega

lemma commitOf_fst_of_legal (pop : List Walker) (s : Str)
    (h : isLegalCont pop s = true) : (commitOf pop s).1 = s := by
  unfold commitOf
  simp [bestGain_eq_of_legal pop s h]

/-! The recursive bracket grammar. -/

lemma nestInput_succ (n : Nat) : nestInput (n + 1) = '[' :: nestInput n := by
  simp [nestInput, List.replicate_succ]

lemma nestInput_length (n : Nat) : (nestInput n).length = n + 1 := by
  simp [nestInput]

lemma nestA_edges : nestA.edgesFrom (State.num 0) =
    [⟨['['], State.num 0⟩, ⟨[']'], State.sym "$"⟩] := by decide

/-- On the cyclic bracket grammar, a live idle walker at state `0` whose
explored records are all no longer than its accumulated text advances
through input of nesting depth `n` to exactly one walker, which sits at the
accept state having consumed the whole input. -/
lemma nest_aux : ∀ (n : Nat) (w : Walker),
    w.acceptor = nestA → w.current_state = State.num 0 →
    w.transition_walker = none → w.accepts_more_input = true →
    (∀ x ∈ w.explored_edges, visitedLen x ≤ w.raw_value.length) →
    ∃ wn, advA (n + 1) w (nestInput n) = [wn] ∧
      wn.current_state = State.sym "$" ∧
      wn.consumed_character_count = w.consumed_character_count + (n + 1) ∧
      wn.remaining_input = none ∧
      wn.raw_value = w.raw_value ++ nestInput n := by
  intro n
  induction n with
  | zero =>
    intro w hacc hcur hidle hmore hinv
    have hEnd := hasEnded_false_of_more w hmore
    have hrw : advA 1 w (nestInput 0) =
        (w.acceptor.edgesFrom w.current_state).flatMap
          (branchArm (fun w2 s2 => advA 0 w2 s2) w [']']) := by
      show advA (0 + 1) w (']' :: []) = _
      exact advA_succ_idle 0 w ']' [] hEnd hidle
    rw [hacc, hcur, nestA_edges] at hrw
    have hss1 : shouldStart ⟨['['], State.num 0⟩ [']'] = false := by decide
    have harm1 : branchArm (fun w2 s2 => advA 0 w2 s2) w [']']
        ⟨['['], State.num 0⟩ = [] := by
      unfold branchArm
      rw [if_neg (by simp [hss1])]
    have hnm : (w.current_state, some (State.sym "$"),
        some (w.raw_value ++ [']'])) ∉ w.explored_edges := by
      intro hmem
      have := hinv _ hmem
      simp [visitedLen] at this
    have hg2 : guardOK w ⟨[']'], State.sym "$"⟩ = true := by
      unfold guardOK
      simp only [Bool.not_eq_true']
      exact decide_eq_false hnm
    have hss2 : shouldStart ⟨[']'], State.sym "$"⟩ [']'] = true := by decide
    have hfeed : feedLeaf [']'] 0 [']'] = .complete 1 [] := by decide
    have harm2 : branchArm (fun w2 s2 => advA 0 w2 s2) w [']']
        ⟨[']'], State.sym "$"⟩ =
        [completeEdge w (State.sym "$") [']']] := by
      unfold branchArm
      rw [if_pos (by simp [hss2, hg2]), hfeed]
      unfold contWith
      simp
    refine ⟨completeEdge w (State.sym "$") [']'], ?_, by simp, by simp, by simp,
      by simp [nestInput]⟩
    rw [show nestInput 0 = [']'] from rfl] at hrw ⊢
    rw [hrw]
    rw [show ([⟨['['], State.num 0⟩, ⟨[']'], State.sym "$"⟩] :
        List Edge).flatMap (branchArm (fun w2 s2 => advA 0 w2 s2) w [']']) =
      branchArm (fun w2 s2 => advA 0 w2 s2) w [']'] ⟨['['], State.num 0⟩ ++
      (branchArm (fun w2 s2 => advA 0 w2 s2) w [']'] ⟨[']'], State.sym "$"⟩ ++ []) from rfl]
    rw [harm1, harm2]
    simp
  | succ n IH =>
    intro w hacc hcur hidle hmore hinv
    have hEnd := hasEnded_false_of_more w hmore
    have hrw : advA (n + 1 + 1) w (nestInput (n + 1)) =
        (w.acceptor.edgesFrom w.current_state).flatMap
          (branchArm (fun w2 s2 => advA (n + 1) w2 s2) w ('[' :: nestInput n)) := by
      rw [nestInput_succ]
      exact advA_succ_idle (n + 1) w '[' (nestInput n) hEnd hidle
    rw [hacc, hcur, nestA_edges] at hrw
    have hpre1 : (['['] : Str).isPrefixOf ('[' :: nestInput n) = true :=
      List.isPrefixOf_iff_prefix.mpr ⟨nestInput n, rfl⟩
    have hss1 : shouldStart ⟨['['], State.num 0⟩ ('[' :: nestInput n) = true := by
      unfold shouldStart
      simp [hpre1]
    have hnm : (w.current_state, some (State.num 0),
        some (w.raw_value ++ ['['])) ∉ w.explored_edges := by
      intro hmem
      have := hinv _ hmem
      simp [visitedLen] at this
    have hg1 : guardOK w ⟨['['], State.num 0⟩ = true := by
      unfold guardOK
      simp only [Bool.not_eq_true']
      exact decide_eq_false hnm
    have hfeed : feedLeaf ['['] 0 ('[' :: nestInput n) = .complete 1 (nestInput n) := by
      unfold feedLeaf
      rw [if_pos (by simp [hpre1])]
      simp
    have hA : (('[' :: nestInput n) : Str).isPrefixOf [']'] = false := by
      rw [Bool.eq_false_iff]
      intro hc
      rcases List.isPrefixOf_iff_prefix.mp hc with ⟨t, ht⟩
      simp at ht
    have hB : (([']'] : Str)).isPrefixOf ('[' :: nestInput n) = false := by
      rw [Bool.eq_false_iff]
      intro hc
      rcases List.isPrefixOf_iff_prefix.mp hc with ⟨t, ht⟩
      simp at ht
    have hss2 : shouldStart ⟨[']'], State.sym "$"⟩ ('[' :: nestInput n) = false := by
      unfold shouldStart
      simp [hA, hB]
    have harm2 : branchArm (fun w2 s2 => advA (n + 1) w2 s2) w ('[' :: nestInput n)
        ⟨[']'], State.sym "$"⟩ = [] := by
      unfold branchArm
      rw [if_neg (by simp [hss2])]
    have hinv1 : ∀ x ∈ (completeEdge w (State.num 0) ['[']).explored_edges,
        visitedLen x ≤ (completeEdge w (State.num 0) ['[']).raw_value.length := by
      intro x hx
      rw [completeEdge_explored] at hx
      simp only [completeEdge_raw]
      split_ifs at hx with hm
      · have := hinv x hx
        simp
        omega
      · rcases List.mem_append.mp hx with hx2 | hx2
        · have := hinv x hx2
          simp
          omega
        · simp at hx2
          subst hx2
          simp [edgeRec, visitedLen]
    rcases IH (completeEdge w (State.num 0) ['['])
        (by simp [hacc]) (by simp) (by simp) (by simp [hmore]) hinv1 with
      ⟨wn, hwn, hcur2, hcons2, hrem2, hraw2⟩
    have harm1 : branchArm (fun w2 s2 => advA (n + 1) w2 s2) w ('[' :: nestInput n)
        ⟨['['], State.num 0⟩ = [wn] := by
      unfold branchArm
      rw [if_pos (by simp [hss1, hg1]), hfeed]
      unfold contWith
      simp only []
      rw [hwn]
      simp
    refine ⟨wn, ?_, hcur2, by simp at hcons2; omega, hrem2, ?_⟩
    · rw [hrw]
      rw [show ([⟨['['], State.num 0⟩, ⟨[']'], State.sym "$"⟩] :
          List Edge).flatMap
            (branchArm (fun w2 s2 => advA (n + 1) w2 s2) w ('[' :: nestInput n)) =
        branchArm (fun w2 s2 => advA (n + 1) w2 s2) w ('[' :: nestInput n)
          ⟨['['], State.num 0⟩ ++
        (branchArm (fun w2 s2 => advA (n + 1) w2 s2) w ('[' :: nestInput n)
          ⟨[']'], State.sym "$"⟩ ++ []) from rfl]
      rw [harm1, harm2]
      simp
    · rw [hraw2, nestInput_succ]
      simp

/-- A startable, guard-passing edge always contributes at least one walker
to the branch fan-out, identifiable by its pending transition (partial
match) or by the edge's visited record (completed transition). -/
lemma branchArm_covers (advF : Walker → Str → List Walker) (w : Walker)
    (input : Str) (e : Edge)
    (hs : shouldStart e input = true) (hg : guardOK w e = true)
    (hmono : ∀ w2 s2, ∀ wn ∈ advF w2 s2, w2.explored_edges ⊆ wn.explored_edges) :
    ∃ wn ∈ branchArm advF w input e,
      (wn.target_state = some e.target ∧
        wn.transition_walker = some ⟨e.label, input.length⟩) ∨
      edgeRec w e.target e.label ∈ wn.explored_edges := by
  unfold branchArm
  rw [if_pos (by simp [hs, hg])]
  cases hf : feedLeaf e.label 0 input with
  | reject => exact absurd hf (feedLeaf_start_ne_reject e input hs)
  | stillIn p =>
    exact ⟨enterEdge w e input, by simp, Or.inl ⟨rfl, rfl⟩⟩
  | complete n lf =>
    have hrec : edgeRec w e.target e.label ∈
        (completeEdge w e.target e.label).explored_edges :=
      completeEdge_rec_mem w _ _
    rcases hcw : contWith advF (completeEdge w e.target e.label) lf with _ | ⟨a, l⟩
    · exact absurd hcw (contWith_ne_nil advF _ lf)
    · have ha : a ∈ contWith advF (completeEdge w e.target e.label) lf := by
        rw [hcw]; simp
      refine ⟨a, ?_, Or.inr ?_⟩
      · show a ∈ contWith advF (completeEdge w e.target e.label) lf
        rw [hcw]; simp
      rcases mem_contWith advF _ lf a ha with ⟨_, rfl⟩ | hmem
      · simpa using hrec
      · exact hmono _ _ a hmem hrec

/-! Claim theorems. -/

/-- C10: constructing an `Acceptor` with every argument omitted yields the
empty state graph, start state `0`, end-state set `{"$"}`, `is_optional`
false and `is_case_sensitive` true. -/
theorem pse_c10_theorem :
    Acceptor.init none none none none none =
      { state_graph := []
        initial_state := State.num 0
        end_states := [State.sym "$"]
        is_optional := false
        is_case_sensitive := true } := rfl

/-- C7: `has_reached_accept_state` returns true exactly when the walker's
current state is one of its acceptor's end states and no transition walker
is pending. -/
theorem pse_c7_theorem (w : Walker) :
    w.has_reached_accept_state = true ↔
      w.current_state ∈ w.acceptor.end_states ∧ w.transition_walker = none := by
  simp [Walker.has_reached_accept_state, Option.isNone_iff_eq_none]

/-- C6: a walker at an end state whose `accepts_more_input` flag is false is
returned unchanged — every field identical — by any further advance call. -/
theorem pse_c6_theorem (w : Walker) (tok : Str)
    (hEndState : w.current_state ∈ w.acceptor.end_states)
    (hMore : w.accepts_more_input = false) :
    advanceW w tok = [w] := by
  unfold advanceW
  cases tok with
  | nil => simp
  | cons c cs =>
    have h : w.hasEnded = true := by simp [Walker.hasEnded, hEndState, hMore]
    exact advA_succ_ended cs.length w c cs h

/-- Witness for C6: the completed walker `wdone` is unchanged by advancing
it with a further token. -/
theorem pse_c6_witness :
    wdone.current_state ∈ wdone.acceptor.end_states ∧
      wdone.accepts_more_input = false ∧
      advanceW wdone ['x'] = [wdone] :=
  ⟨by decide, by decide, pse_c6_theorem wdone ['x'] (by decide) (by decide)⟩

/-- C8: an idle walker that is not at an end state and whose every outgoing
edge rejects the token (`should_start_transition` fails) advances to zero
successors; no error is raised (advancement is total and returns the empty
list), and the candidate scan simply skips such a token. -/
theorem pse_c8_theorem (w : Walker) (tok : Str) (ht : tok ≠ [])
    (hidle : w.transition_walker = none)
    (hnend : w.current_state ∉ w.acceptor.end_states)
    (hall : ∀ e ∈ w.acceptor.edgesFrom w.current_state,
      shouldStart e tok = false) :
    advanceW w tok = [] ∧ acceptableTok [w] tok = false ∧
      ∀ rest, scanCandidates [w] (tok :: rest) = scanCandidates [w] rest := by
  have hadv : advanceW w tok = [] := by
    unfold advanceW
    cases tok with
    | nil => exact absurd rfl ht
    | cons c cs =>
      have hEnd : w.hasEnded = false := by
        simp [Walker.hasEnded, hnend]
      show advA (cs.length + 1) w (c :: cs) = []
      rw [advA_succ_idle cs.length w c cs hEnd hidle]
      rw [List.flatMap_eq_nil_iff]
      intro e he
      unfold branchArm
      rw [if_neg (by simp [hall e he])]
  have hpairs : resultPairs [w] tok = [] := by
    unfold resultPairs
    simp [hadv]
  have hacc : acceptableTok [w] tok = false := by
    unfold acceptableTok bestGain
    rw [hpairs]
    simp
  refine ⟨hadv, hacc, ?_⟩
  intro rest
  rw [scanCandidates, if_neg (by simp [hacc])]

/-- Witness for C8: the boolean walker rejects the token `"xx"` with zero
successors and the scan skips it. -/
theorem pse_c8_witness :
    advanceW wbool ['x', 'x'] = [] ∧ acceptableTok [wbool] ['x', 'x'] = false ∧
      ∀ rest, scanCandidates [wbool] (['x', 'x'] :: rest) =
        scanCandidates [wbool] rest :=
  pse_c8_theorem wbool ['x', 'x'] (by decide) (by decide) (by decide) (by decide)

/-- C2: for a live idle walker, every edge that is viable for the token
(start check and cycle guard both pass) contributes at least one walker to
the population produced by one advance step — no viable alternative is
dropped, and this holds for each of the simultaneously viable edges. -/
theorem pse_c2_theorem (w : Walker) (tok : Str)
    (hidle : w.transition_walker = none)
    (hmore : w.accepts_more_input = true) :
    ∀ e ∈ w.acceptor.edgesFrom w.current_state,
      shouldStart e tok = true → guardOK w e = true →
      ∃ wn ∈ advanceW w tok,
        (wn.target_state = some e.target ∧
          wn.transition_walker = some ⟨e.label, tok.length⟩) ∨
        edgeRec w e.target e.label ∈ wn.explored_edges := by
  intro e he hs hg
  have htok : tok ≠ [] := by
    intro h
    subst h
    simp [shouldStart] at hs
  obtain ⟨c, cs, rfl⟩ := List.exists_cons_of_ne_nil htok
  unfold advanceW
  simp only [List.length_cons]
  rw [advA_succ_idle cs.length w c cs (hasEnded_false_of_more w hmore) hidle]
  rcases branchArm_covers (fun w2 s2 => advA cs.length w2 s2) w (c :: cs) e hs hg
      (fun w2 s2 wn hwn => advA_explored_mono cs.length w2 s2 wn hwn) with
    ⟨wn, hmemB, hprop⟩
  exact ⟨wn, List.mem_flatMap.mpr ⟨e, he, hmemB⟩, hprop⟩

/-- Witness for C2: on the ambiguous acceptor `brA`, the token `"ab"` makes
both edges viable and one advance step produces a walker for each. -/
theorem pse_c2_witness :
    (∃ wn ∈ advanceW wbr ['a', 'b'],
      (wn.target_state = some (State.num 1) ∧
        wn.transition_walker = some ⟨['a', 'b'], 2⟩) ∨
      edgeRec wbr (State.num 1) ['a', 'b'] ∈ wn.explored_edges) ∧
    (∃ wn ∈ advanceW wbr ['a', 'b'],
      (wn.target_state = some (State.num 2) ∧
        wn.transition_walker = some ⟨['a', 'b', 'c'], 2⟩) ∨
      edgeRec wbr (State.num 2) ['a', 'b', 'c'] ∈ wn.explored_edges) :=
  ⟨pse_c2_theorem wbr ['a', 'b'] (by decide) (by decide)
      ⟨['a', 'b'], State.num 1⟩ (by decide) (by decide) (by decide),
    pse_c2_theorem wbr ['a', 'b'] (by decide) (by decide)
      ⟨['a', 'b', 'c'], State.num 2⟩ (by decide) (by decide) (by decide)⟩

/-- C3: token healing — when the token splits as a completable edge label
followed by a non-empty remainder that cannot start any edge from the
target state, advancing accepts the label, moves the walker to the target
state and stores the remainder in `remaining_input` instead of rejecting
the whole token. -/
theorem pse_c3_theorem (w : Walker) (e : Edge) (r : Str)
    (hidle : w.transition_walker = none)
    (hmore : w.accepts_more_input = true)
    (he : e ∈ w.acceptor.edgesFrom w.current_state)
    (hg : guardOK w e = true)
    (hl : e.label ≠ []) (hr : r ≠ [])
    (hstuck : ∀ e2 ∈ w.acceptor.edgesFrom e.target, shouldStart e2 r = false) :
    ∃ wn ∈ advanceW w (e.label ++ r),
      wn.current_state = e.target ∧ wn.remaining_input = some r ∧
      wn.raw_value = w.raw_value ++ e.label ∧
      wn.consumed_character_count =
        w.consumed_character_count + e.label.length := by
  obtain ⟨a, as, hlab⟩ := List.exists_cons_of_ne_nil hl
  obtain ⟨b, bs, hrr⟩ := List.exists_cons_of_ne_nil hr
  have htok : e.label ++ r = a :: (as ++ r) := by rw [hlab]; rfl
  have hpre : e.label.isPrefixOf (a :: (as ++ r)) = true := by
    rw [← htok]
    exact List.isPrefixOf_iff_prefix.mpr ⟨r, rfl⟩
  have hss : shouldStart e (a :: (as ++ r)) = true := by
    unfold shouldStart
    simp [hpre]
  have hdrop : (a :: (as ++ r)).drop e.label.length = r := by
    rw [← htok]
    exact List.drop_left e.label r
  have hfeed : feedLeaf e.label 0 (a :: (as ++ r)) =
      .complete e.label.length r := by
    unfold feedLeaf
    simp only [List.drop_zero]
    rw [if_pos (by simp [hpre]), hdrop]
  have hw1acc : (completeEdge w e.target e.label).acceptor = w.acceptor := rfl
  have hEnd1 : (completeEdge w e.target e.label).hasEnded = false :=
    hasEnded_false_of_more _ (by simp [hmore])
  have hfe : (as ++ r).length = (as.length + bs.length) + 1 := by
    rw [hrr]
    simp only [List.length_append, List.length_cons]
    omega
  have hinner : advA (as ++ r).length (completeEdge w e.target e.label) r = [] := by
    rw [hfe, hrr]
    rw [advA_succ_idle (as.length + bs.length) _ b bs hEnd1 rfl]
    rw [List.flatMap_eq_nil_iff]
    intro e2 he2
    rw [hw1acc, completeEdge_current] at he2
    unfold branchArm
    rw [if_neg (by simp [← hrr, hstuck e2 he2])]
  have harm : branchArm (fun w2 s2 => advA (as ++ r).length w2 s2) w
      (a :: (as ++ r)) e =
      [{ completeEdge w e.target e.label with remaining_input := some r }] := by
    unfold branchArm
    rw [if_pos (by simp [hss, hg]), hfeed]
    unfold contWith
    simp only []
    rw [hinner]
    simp
  refine ⟨{ completeEdge w e.target e.label with remaining_input := some r }, ?_,
    by simp, rfl, by simp, by simp⟩
  unfold advanceW
  rw [htok]
  simp only [List.length_cons]
  rw [advA_succ_idle (as ++ r).length w a (as ++ r)
    (hasEnded_false_of_more w hmore) hidle]
  exact List.mem_flatMap.mpr ⟨e, he, by rw [harm]; simp⟩

/-- Witness for C3: expecting the literal `"true"` and receiving `"truely"`,
the walker reaches the boolean accept state with remainder `"ly"`. -/
theorem pse_c3_witness :
    ∃ wn ∈ advanceW wbool ("true".toList ++ "ly".toList),
      wn.current_state = State.sym "$" ∧ wn.remaining_input = some "ly".toList ∧
      wn.raw_value = wbool.raw_value ++ "true".toList ∧
      wn.consumed_character_count =
        wbool.consumed_character_count + "true".toList.length :=
  pse_c3_theorem wbool ⟨"true".toList, State.sym "$"⟩ "ly".toList
    (by decide) (by decide) (by decide) (by decide) (by decide) (by decide)
    (by decide)

/-- C9: every walker yielded to the caller by one advance call either has
exhausted the token (`remaining_input = none`; leftover input after a
completed transition is re-advanced within the same call) or is yielded
with the non-empty unconsumable remainder stored in `remaining_input` —
no edge out of its state can start consuming that remainder. -/
theorem pse_c9_theorem (w : Walker) (tok : Str)
    (hrem : w.remaining_input = none) :
    ∀ wn ∈ advanceW w tok,
      wn.remaining_input = none ∨
      ∃ r, r ≠ [] ∧ wn.remaining_input = some r ∧
        wn.transition_walker = none ∧
        ∀ e ∈ wn.acceptor.edgesFrom wn.current_state,
          (shouldStart e r && guardOK wn e) = false :=
  advA_yield tok.length w tok hrem

/-- Witness for C9: advancing `w0ex` with `"ax"` only yields walkers that
consumed everything or are stuck on their recorded remainder. -/
theorem pse_c9_witness :
    w0ex.remaining_input = none ∧
    ∀ wn ∈ advanceW w0ex ['a', 'x'],
      wn.remaining_input = none ∨
      ∃ r, r ≠ [] ∧ wn.remaining_input = some r ∧
        wn.transition_walker = none ∧
        ∀ e ∈ wn.acceptor.edgesFrom wn.current_state,
          (shouldStart e r && guardOK wn e) = false :=
  ⟨by decide, pse_c9_theorem w0ex ['a', 'x'] (by decide)⟩

/-- C4: (a) advancement never re-records a visited edge already present in
`explored_edges` — duplicate-freedom of the explored set is preserved (and
`advance` is a total function, so every advance call terminates); (b) on
the recursive bracket grammar, input of any nesting depth `n` is consumed
exactly: the single resulting walker sits at the accept state with
`consumed_character_count` equal to the input length and no remainder. -/
theorem pse_c4_theorem :
    (∀ (w : Walker) (input : Str), w.explored_edges.Nodup →
        ∀ wn ∈ advanceW w input, wn.explored_edges.Nodup) ∧
    (∀ n : Nat, ∃ wn, advanceW (Walker.init nestA) (nestInput n) = [wn] ∧
        wn.current_state = State.sym "$" ∧
        wn.consumed_character_count = (nestInput n).length ∧
        wn.remaining_input = none ∧
        wn.raw_value = nestInput n) := by
  constructor
  · intro w input hn wn hwn
    exact advA_nodup input.length w input hn wn hwn
  · intro n
    rcases nest_aux n (Walker.init nestA) rfl rfl rfl rfl (by simp [Walker.init])
      with ⟨wn, heq, h1, h2, h3, h4⟩
    refine ⟨wn, ?_, h1, ?_, h3, ?_⟩
    · unfold advanceW
      rw [nestInput_length]
      exact heq
    · rw [nestInput_length]
      have h2b : (Walker.init nestA).consumed_character_count = 0 := rfl
      omega
    · have h4b : (Walker.init nestA).raw_value = [] := rfl
      rw [h4b] at h4
      simpa using h4

/-- Witness for C4: duplicate-freedom at a concrete walker and input, and
exact consumption of the depth-2 nested input. -/
theorem pse_c4_witness :
    (∀ wn ∈ advanceW w0ex ['a', 'x'], wn.explored_edges.Nodup) ∧
    (∃ wn, advanceW (Walker.init nestA) (nestInput 2) = [wn] ∧
      wn.current_state = State.sym "$" ∧
      wn.consumed_character_count = (nestInput 2).length ∧
      wn.remaining_input = none ∧
      wn.raw_value = nestInput 2) :=
  ⟨fun wn hwn => pse_c4_theorem.1 w0ex ['a', 'x'] (by decide) wn hwn,
    pse_c4_theorem.2 2⟩

/-- The candidate scan commits at the first acceptable candidate in rank
order. -/
lemma scanCandidates_first (pop : List Walker) :
    ∀ (cands : List Str) (i : Nat) (hi : i < cands.length),
      acceptableTok pop (cands.get ⟨i, hi⟩) = true →
      (∀ j (hj : j < i),
        acceptableTok pop (cands.get ⟨j, Nat.lt_trans hj hi⟩) = false) →
      scanCandidates pop cands = some (commitOf pop (cands.get ⟨i, hi⟩)) := by
  intro cands
  induction cands with
  | nil => intro i hi; simp at hi
  | cons c rest IH =>
    intro i hi hacc hbefore
    cases i with
    | zero =>
      have hc : acceptableTok pop c = true := hacc
      rw [scanCandidates, if_pos (by simp [hc])]
      rfl
    | succ j =>
      have hc0 : acceptableTok pop c = false := hbefore 0 (Nat.succ_pos j)
      rw [scanCandidates, if_neg (by simp [hc0])]
      exact IH j (Nat.lt_of_succ_lt_succ hi) hacc
        (fun k hk => hbefore (k + 1) (Nat.succ_lt_succ hk))

/-- C5: in one driver step the candidates are tried in rank order and the
first acceptable one (fully accepted or accepted as a healed prefix) is the
one committed — the committed text is that candidate or its validated
prefix, and no later candidate is committed while an earlier acceptable one
exists. -/
theorem pse_c5_theorem (pop : List Walker) (cands vocab : List Str) (i : Nat)
    (hi : i < cands.length)
    (hacc : acceptableTok pop (cands.get ⟨i, hi⟩) = true)
    (hbefore : ∀ j (hj : j < i),
      acceptableTok pop (cands.get ⟨j, Nat.lt_trans hj hi⟩) = false) :
    driverStep pop cands vocab = .ok (commitOf pop (cands.get ⟨i, hi⟩)) ∧
    ∃ rest, (commitOf pop (cands.get ⟨i, hi⟩)).1 ++ rest = cands.get ⟨i, hi⟩ := by
  have hscan := scanCandidates_first pop cands i hi hacc hbefore
  constructor
  · unfold driverStep
    rw [hscan]
  · exact ⟨(cands.get ⟨i, hi⟩).drop (bestGain pop (cands.get ⟨i, hi⟩)),
      List.take_append_drop _ _⟩

/-- Witness for C5: with ranked candidates `["xx", "true"]`, the boolean
walker rejects the first and the step commits the second. -/
theorem pse_c5_witness :
    driverStep [wbool] [['x', 'x'], "true".toList] [] =
      .ok (commitOf [wbool] "true".toList) ∧
    ∃ rest, (commitOf [wbool] "true".toList).1 ++ rest = "true".toList :=
  pse_c5_theorem [wbool] [['x', 'x'], "true".toList] [] 1 (by decide)
    (by decide)
    (fun j hj => by
      have hj0 : j = 0 := by omega
      subst hj0
      show acceptableTok [wbool] ['x', 'x'] = false
      decide)

/-- C1 (amended): when no ranked candidate is acceptable but at least one
vocabulary token is in full a legal continuation of some live walker, the
driver step never stalls and never raises: it commits a non-empty token,
namely the longest vocabulary token that is a legal continuation of some
live walker (the first listed among equal-length ties). -/
theorem pse_c1_theorem (pop : List Walker) (cands vocab : List Str)
    (hno : ∀ c ∈ cands, acceptableTok pop c = false)
    (t : Str) (ht : t ∈ vocab) (hleg : isLegalCont pop t = true) :
    ∃ s pop2, driverStep pop cands vocab = .ok (s, pop2) ∧ s ≠ [] ∧
      s ∈ vocab ∧ isLegalCont pop s = true ∧
      ∀ u ∈ vocab, isLegalCont pop u = true → u.length ≤ s.length := by
  have hscan := scanCandidates_none pop cands hno
  have hfilter : t ∈ vocab.filter (fun x => isLegalCont pop x) :=
    List.mem_filter.mpr ⟨ht, by simp [hleg]⟩
  have hfne : vocab.filter (fun x => isLegalCont pop x) ≠ [] :=
    List.ne_nil_of_mem hfilter
  cases hpick : pickLongest (vocab.filter (fun x => isLegalCont pop x)) with
  | none => exact absurd (pickLongest_none_nil _ hpick) hfne
  | some s =>
    rcases pickLongest_spec _ s hpick with ⟨hsmem, hsmax⟩
    have hsvocab : s ∈ vocab := (List.mem_filter.mp hsmem).1
    have hsleg : isLegalCont pop s = true := by
      have := (List.mem_filter.mp hsmem).2
      simpa using this
    have hcommit : (commitOf pop s).1 = s := commitOf_fst_of_legal pop s hsleg
    have hll : longestLegal pop vocab = some s := hpick
    refine ⟨s, (commitOf pop s).2, ?_, ?_, hsvocab, hsleg, ?_⟩
    · unfold driverStep
      rw [hscan, hll]
      exact congrArg Except.ok (Prod.ext_iff.mpr ⟨hcommit, rfl⟩)
    · intro h
      subst h
      simp [isLegalCont] at hsleg
    · intro u hu huleg
      exact hsmax u (List.mem_filter.mpr ⟨hu, by simp [huleg]⟩)

/-- Witness for C1: with no candidates and the vocabulary `["a"]` whose
token is a legal continuation of `w0ex`, the step commits `"a"`. -/
theorem pse_c1_witness :
    ∃ s pop2, driverStep [w0ex] [] [['a']] = .ok (s, pop2) ∧ s ≠ [] ∧
      s ∈ [(['a'] : Str)] ∧ isLegalCont [w0ex] s = true ∧
      ∀ u ∈ [(['a'] : Str)], isLegalCont [w0ex] u = true →
        u.length ≤ s.length :=
  pse_c1_theorem [w0ex] [] [['a']] (by simp) ['a'] (by decide) (by decide)

/-- Counterexample for C1 as stated: the walker `w0ex` expects the literal
`"a"`; the vocabulary holds only `"ax"`, whose prefix `"a"` is a legal
continuation of the live walker, and the candidate list is empty (so it
certainly contains no structural match), yet the driver step commits
nothing: it reports exhaustion, because no vocabulary token is in full a
legal continuation. -/
theorem pse_c1_counterexample :
    isLegalCont [w0ex] ['a'] = true ∧
    (['a'] : Str).isPrefixOf ['a', 'x'] = true ∧
    (['a', 'x'] : Str) ∈ [(['a', 'x'] : Str)] ∧
    (∀ c ∈ ([] : List Str), acceptableTok [w0ex] c = false) ∧
    driverStep [w0ex] [] [['a', 'x']] = .error .exhausted :=
  ⟨by decide, by decide, by decide, by simp, by decide⟩

end PSE
